import Mathlib

/-!
Shallow embedding of `src/wizard/app/common/rule/render_tree.js`.

JavaScript strings are modelled as `String` (for uids and labels) or
`List Char` (for the character-level text processing of `truncateText`
and the `type(value)` output matcher); JS numbers are modelled as exact
rationals (`ℚ`), so `12 * 0.6` is the exact rational `36/5`.
An optional JS field that may be `undefined` is modelled as `Option`;
JS truthiness of an optional string (`undefined` and `""` are both
falsy) is `strTruthy` below.
-/

namespace RenderTree

/-! ### Constants (lines 5-64 of render_tree.js) -/

def NODE_FONT_SIZE : ℚ := 12
def PARSER_FONT_SIZE : ℚ := 10
def BASE_PENWIDTH : ℚ := 1
def HIGHLIGHT_PENWIDTH_NODE : ℚ := 7/2
def HIGHLIGHT_PENWIDTH_EDGE : ℚ := 7/2
def MAX_VALUE_WIDTH : ℚ := 300
def INPUT_BOX_HEIGHT : ℚ := 40
def OUTPUT_BOX_HEIGHT : ℚ := 40
def INPUT_TO_ROOT_SPACE : ℚ := 125
def LEAF_TO_PARSER_SPACE : ℚ := 8
def LEAF_TO_OUTPUT_SPACE : ℚ := 20
def MARGIN_TOP : ℚ := 30
def MARGIN_BOTTOM : ℚ := 30
def MAIN_SHAPE_WIDTH : ℚ := 200
def MAIN_SHAPE_HEIGHT : ℚ := 40
def PARSER_BOX_HEIGHT : ℚ := 22

/-- `NODE_FONT_SIZE * 0.6` (lines 71, 165, 442). -/
def MONO_CHAR_WIDTH : ℚ := NODE_FONT_SIZE * (6/10)

/-- `PARSER_FONT_SIZE * 0.6` (lines 176, 391). -/
def MONO_CHAR_WIDTH_PARSER : ℚ := PARSER_FONT_SIZE * (6/10)

/-- The ellipsis `'...'` as a character list (line 72). -/
def ellipsisChars : List Char := ['.', '.', '.']

/-! ### truncateText (lines 70-92)

`Math.floor` on a possibly negative quotient is `Int.floor`; `Math.ceil`
is `Int.ceil`.  `text.substring(0, l)` is `List.take l` and
`text.substring(text.length - r)` is `List.drop (text.length - r)`
(both JS `substring` and the Lean functions clamp out-of-range indices
the same way for the values that occur here). -/

/-- The local `keepChars` of `truncateText`:
`Math.floor((maxWidth - ellipsisWidth) / MONO_CHAR_WIDTH)` (lines 80-81). -/
def keepCharsOf (maxWidth : ℚ) : ℤ :=
  ⌊(maxWidth - (ellipsisChars.length : ℚ) * MONO_CHAR_WIDTH) / MONO_CHAR_WIDTH⌋

/-- The local `leftChars`: `Math.ceil(keepChars / 2)` (line 88). -/
def leftCharsOf (maxWidth : ℚ) : ℤ :=
  ⌈(keepCharsOf maxWidth : ℚ) / 2⌉

def truncateText (text : List Char) (maxWidth : ℚ) : List Char :=
  if (text.length : ℚ) * MONO_CHAR_WIDTH ≤ maxWidth then
    text
  else if keepCharsOf maxWidth ≤ 1 then
    ellipsisChars
  else
    text.take (leftCharsOf maxWidth).toNat ++ ellipsisChars ++
      text.drop (text.length - (keepCharsOf maxWidth - leftCharsOf maxWidth).toNat)

/-! ### Data model (lines 94-141)

`nodes` is the merged branch/leaf list built at lines 133-136: a branch
contributes `{uid, label: name, leaf: false}` and a leaf contributes its
own fields plus `leaf: true`. -/

structure RawNode where
  uid : String
  leaf : Bool
  label : Option String
  typ : Option String
  parser : Option String
  examples : Option (List String)
  output : Option String
deriving DecidableEq, Repr

structure Edge where
  source : String
  target : String
  label : Option String
deriving DecidableEq, Repr

/-- JS truthiness of an optional string field: `undefined` and `""` are
falsy, any other string is truthy. -/
def strTruthy : Option String → Bool
  | none => false
  | some s => s ≠ ""

/-- `edge.label || ''` (line 104). -/
def edgeLabel (e : Edge) : String := e.label.getD ""

/-- The derived `_edge_info` record (lines 105-110). -/
structure EdgeInfo where
  label : String
  is_true : Bool
  is_false : Bool
  is_custom : Bool
deriving DecidableEq, Repr

def mkEdgeInfo (label : String) : EdgeInfo :=
  { label := label
    is_true := label.toLower == "true"
    is_false := label.toLower == "false"
    is_custom := label.toLower != "true" && label.toLower != "false" }

/-- `nodeMap.get u` (line 96): a JS `Map` built from a list of pairs keeps
the last entry for a duplicated key. -/
def lookupNode (nodes : List RawNode) (u : String) : Option RawNode :=
  nodes.reverse.find? (fun n => n.uid == u)

/-- A uid resolves iff `nodeMap.get` finds it (lines 100-101). -/
def resolves (nodes : List RawNode) (u : String) : Bool :=
  nodes.any (fun n => n.uid == u)

/-- The `childrenUids` set accumulated at line 99: every edge whose
`target` is truthy records its target, whether or not either endpoint
resolves to a known node. -/
def childrenUidsList (edges : List Edge) : List String :=
  (edges.filter (fun e => e.target ≠ "")).map (fun e => e.target)

def hasIncoming (edges : List Edge) (u : String) : Bool :=
  (childrenUidsList edges).contains u

/-- The edges that actually attach a child (line 102: both endpoints
must resolve in the node map). -/
def attachedEdges (nodes : List RawNode) (edges : List Edge) : List Edge :=
  edges.filter (fun e => resolves nodes e.source && resolves nodes e.target)

/-- The children list accumulated on the map entry for `p`
(line 111), in edge-iteration order, as the list of child uids. -/
def childUidsOf (nodes : List RawNode) (edges : List Edge) (p : String) :
    List String :=
  ((attachedEdges nodes edges).filter (fun e => e.source == p)).map
    (fun e => e.target)

/-- The `_edge_info` finally stored on the map entry for `t`: the info
derived from the last attaching edge targeting `t` (lines 105-110;
repeated attachment overwrites). -/
def edgeInfoOf (nodes : List RawNode) (edges : List Edge) (t : String) :
    Option EdgeInfo :=
  (((attachedEdges nodes edges).filter (fun e => e.target == t)).getLast?).map
    (fun e => mkEdgeInfo (edgeLabel e))

/-- `nodes.filter(n => !childrenUids.has(n.uid))` (line 114). -/
def rootsOf (nodes : List RawNode) (edges : List Edge) : List RawNode :=
  nodes.filter (fun n => !hasIncoming edges n.uid)

/-- `buildHierarchy` (lines 94-119), returning the root node (the map
entry selected at line 115) or `none` for the empty-input, no-root and
multiple-root failures.  The children structure of the returned
hierarchy is given functionally by `childUidsOf` and `edgeInfoOf`. -/
def buildHierarchy (nodes : List RawNode) (edges : List Edge) :
    Option RawNode :=
  if nodes.isEmpty then none
  else
    match rootsOf nodes edges with
    | [r] => lookupNode nodes r.uid
    | _ => none

/-! ### Main execution guards and output (lines 121-141, 597-602) -/

structure Branch where
  uid : String
  name : String
deriving DecidableEq, Repr

structure Leaf where
  uid : String
  typ : Option String
  parser : Option String
  examples : Option (List String)
  output : Option String
deriving DecidableEq, Repr

/-- The parsed input payload (line 127).  A top-level field that is
missing (or `null`) is `none`. -/
structure Payload where
  branches : Option (List Branch)
  leaves : Option (List Leaf)
  edges : Option (List Edge)
  highlights : Option (List String)
  input : Option String
deriving DecidableEq, Repr

/-- Lines 133-136: branches and leaves merged into one node list. -/
def nodesOf (bs : List Branch) (ls : List Leaf) : List RawNode :=
  bs.map (fun b =>
    { uid := b.uid, leaf := false, label := some b.name,
      typ := none, parser := none, examples := none, output := none }) ++
  ls.map (fun l =>
    { uid := l.uid, leaf := true, label := none,
      typ := l.typ, parser := l.parser, examples := l.examples,
      output := l.output })

/-- The observable outcome of one invocation of the script on a parsed
payload: the list of documents written to standard output and the
process exit code.  Lines 128-131 (missing-field guard, exit 1 with no
output), line 141 (null hierarchy, exit 1 with no output), line 597
(the single `console.log` of the finished SVG on success). -/
def mainResult (p : Payload) : List String × Nat :=
  match p.branches, p.leaves, p.edges, p.highlights with
  | some bs, some ls, some es, some _hs =>
    match buildHierarchy (nodesOf bs ls) es with
    | none => ([], 1)
    | some _root => (["<svg>"], 0)
  | _, _, _, _ => ([], 1)

/-! ### Highlight-driven styling -/

/-- `highlightUidSet.size` (line 138: `new Set(highlights)` keeps one
copy of each distinct uid). -/
def highlightSetSize (highlights : List String) : Nat :=
  highlights.dedup.length

/-- Whether the input box receives the stacked-blur glow styling
(line 233: `highlightUidSet.size > 0`). -/
def inputGlow (highlights : List String) : Bool :=
  0 < highlightSetSize highlights

/-- Whether a leaf's structured output box receives the stacked-blur
glow styling (lines 305 and 480: `highlightUidSet.has(nodeData.uid)`,
i.e. per-node, not global). -/
def outputGlow (highlights : List String) (leafUid : String) : Bool :=
  highlights.contains leafUid

/-- `isHighlightedEdge` (line 273). -/
def isHighlightedEdge (highlights : List String) (sourceUid targetUid : String) :
    Bool :=
  highlights.contains sourceUid && highlights.contains targetUid

/-- The stroke width given to an edge's line (line 276). -/
def edgeStrokeWidth (highlights : List String) (sourceUid targetUid : String) :
    ℚ :=
  if isHighlightedEdge highlights sourceUid targetUid then
    HIGHLIGHT_PENWIDTH_EDGE
  else BASE_PENWIDTH

/-- The `marker-end` arrowhead given to an edge's line (line 276). -/
def edgeMarker (highlights : List String) (sourceUid targetUid : String) :
    String :=
  if isHighlightedEdge highlights sourceUid targetUid then
    "url(#arrowhead-highlight)"
  else "url(#arrowhead)"

/-! ### Pre-layout sibling sort (line 156)

`root.sort(cmp)` sorts, at every node of the d3 hierarchy, the children
array with `Array.prototype.sort`, which is stable (ES2019) and orders
by ascending comparator value.  The comparator is
`(a.data._edge_info?.is_true === false ? 0 : 1) -
 (b.data._edge_info?.is_true === false ? 0 : 1)`.
A stable comparison sort with a total preorder comparator has a unique
result, realised here by a stable insertion sort. -/

/-- A node of the d3 hierarchy: its data's uid and `_edge_info`, and its
(ordered) children. -/
inductive HNode where
  | mk (uid : String) (einfo : Option EdgeInfo) (children : List HNode)
deriving Repr

def HNode.uid : HNode → String
  | .mk u _ _ => u

def HNode.einfo : HNode → Option EdgeInfo
  | .mk _ e _ => e

def HNode.children : HNode → List HNode
  | .mk _ _ cs => cs

/-- `d.data._edge_info?.is_true === false ? 0 : 1`: with no edge info the
optional chain yields `undefined`, and `undefined === false` is false,
so the key is 1. -/
def HNode.sortKey (h : HNode) : Nat :=
  match h.einfo with
  | some ei => if ei.is_true = false then 0 else 1
  | none => 1

/-- Stable insertion: `x` is placed before the first element whose key
is not strictly smaller, so elements with equal keys keep their
original relative order. -/
def insertStable (x : HNode) : List HNode → List HNode
  | [] => [x]
  | y :: ys =>
    if y.sortKey < x.sortKey then y :: insertStable x ys else x :: y :: ys

/-- The unique stable ascending sort by `sortKey`. -/
def sortChildren : List HNode → List HNode
  | [] => []
  | x :: xs => insertStable x (sortChildren xs)

/-- `root.sort(...)` applied recursively at every node. -/
def sortHierarchy : HNode → HNode
  | .mk u e cs =>
    .mk u e (sortChildren (cs.attach.map (fun c => sortHierarchy c.1)))
decreasing_by
  have := List.sizeOf_lt_of_mem c.2
  simp only [HNode.mk.sizeOf_spec]
  omega

/-! ### Output parsing (line 423): `/^([^(]+)\(([^)]*)\)$/`

`[^(]+` cannot cross a `'('`, so the first group is the maximal
nonempty `'('`-free prefix; then the literal `'('`; then `([^)]*)\)$`
matches the remainder exactly when it consists of a `')'`-free segment
followed by a final `')'`. -/

def matchOutput (s : List Char) : Option (List Char × List Char) :=
  if s.dropWhile (fun c => c ≠ '(') = [] then none
  else if s.takeWhile (fun c => c ≠ '(') = [] then none
  else if (s.dropWhile (fun c => c ≠ '(')).tail.getLast? = some ')' ∧
      ')' ∉ (s.dropWhile (fun c => c ≠ '(')).tail.dropLast then
    some (s.takeWhile (fun c => c ≠ '('),
      (s.dropWhile (fun c => c ≠ '(')).tail.dropLast)
  else none

/-- How a leaf's output annotation is rendered (lines 412-592): on a
regex match, adjoined type/value segments where only the value text is
truncated, at `MAX_VALUE_WIDTH - 2` (line 466) while the type text is
drawn as is (line 514); otherwise the whole output string as one plain
label, untruncated (line 571). -/
inductive OutputRender where
  | structured (typeText : List Char) (valueTextDrawn : List Char)
  | plain (text : List Char)
deriving DecidableEq, Repr

def renderOutput (output : List Char) : OutputRender :=
  match matchOutput output with
  | some (t, v) => .structured t (truncateText v (MAX_VALUE_WIDTH - 2))
  | none => .plain output

/-! ### Content sizing (lines 159-199) and canvas height (lines 215-269) -/

/-- JS truthiness of the optional `examples` array combined with the
length check at line 188: `d.data.examples && d.data.examples.length > 0`. -/
def examplesTruthy : Option (List String) → Bool
  | none => false
  | some ex => 0 < ex.length

/-- `d._calculatedHeight` (lines 160-197). -/
def calcHeight (n : RawNode) : ℚ :=
  if n.leaf = false then MAIN_SHAPE_HEIGHT
  else
    MAIN_SHAPE_HEIGHT
    + (if strTruthy n.parser then LEAF_TO_PARSER_SPACE + PARSER_BOX_HEIGHT else 0)
    + (match n.examples with
       | some ex => if 0 < ex.length then (ex.length : ℚ) * INPUT_BOX_HEIGHT else 0
       | none => 0)
    + (if strTruthy n.output then LEAF_TO_OUTPUT_SPACE + OUTPUT_BOX_HEIGHT else 0)

/-- `d._calculatedWidth` (lines 161-182). -/
def calcWidth (n : RawNode) : ℚ :=
  if n.leaf = false then
    let labelWidth :=
      ((n.label.getD "").length : ℚ) * MONO_CHAR_WIDTH + 20
    max MAIN_SHAPE_WIDTH (min labelWidth (MAIN_SHAPE_WIDTH * 2))
  else
    let typWidth := ((n.typ.getD "").length : ℚ) * MONO_CHAR_WIDTH + 20
    let parserWidth : ℚ :=
      if strTruthy n.parser then
        ((n.parser.getD "").length : ℚ) * MONO_CHAR_WIDTH_PARSER + 16
      else 0
    max MAIN_SHAPE_WIDTH (min (max typWidth parserWidth) (MAIN_SHAPE_WIDTH * 2))

/-- Whether the input band (input box, dashed connector to the root,
reserved header height) is produced at all (lines 216 and 224:
`if (input)`). -/
def renderInputBand (input : Option String) : Bool := strTruthy input

/-- `inputBlockHeight` (lines 215-218). -/
def inputBlockHeight (input : Option String) : ℚ :=
  if strTruthy input then INPUT_BOX_HEIGHT + INPUT_TO_ROOT_SPACE else 0

/-- `finalSvgHeight` (line 269) as a function of the tree bounding-box
height and the optional input annotation. -/
def finalSvgHeight (treeHeight : ℚ) (input : Option String) : ℚ :=
  treeHeight + inputBlockHeight input + MARGIN_TOP + MARGIN_BOTTOM

/-- Whether a node gets an output annotation (line 412:
`if (nodeData.output)`, leaves only). -/
def rendersOutputBox (n : RawNode) : Bool :=
  n.leaf && strTruthy n.output

/-- Whether a node gets a parser annotation box (line 381:
`if (nodeData.parser)`, leaves only). -/
def rendersParserBox (n : RawNode) : Bool :=
  n.leaf && strTruthy n.parser

/-! ### Descendant count of the built hierarchy

`d3.hierarchy(root).descendants().length` counts the nodes reachable
from the root through the children lists.  The children lists of the
structure built by `buildHierarchy` are given by `childUidsOf`; the
count is computed here with a fuel argument (on an acyclic hierarchy
any fuel at least the depth gives the exact count, and the theorems
invoke it with fuel `nodes.length`). -/

def descCount (nodes : List RawNode) (edges : List Edge) :
    Nat → String → Nat
  | 0, _ => 0
  | fuel + 1, u =>
    1 + ((childUidsOf nodes edges u).map (descCount nodes edges fuel)).sum

/-! ### Abstract rooted trees

`UTree` is a finite single-rooted tree of uids; it formalises the
claim's "N nodes together with N−1 edges forming a proper single-rooted
tree over them": the node uids are exactly `t.uids` and the edge
endpoint pairs are exactly `t.edgePairs`. -/

inductive UTree where
  | mk (uid : String) (children : List UTree)

def UTree.uid : UTree → String
  | .mk u _ => u

def UTree.children : UTree → List UTree
  | .mk _ cs => cs

def UTree.size : UTree → Nat
  | .mk _ cs => 1 + (cs.attach.map (fun c => c.1.size)).sum
decreasing_by
  have := List.sizeOf_lt_of_mem c.2
  simp only [UTree.mk.sizeOf_spec]
  omega

/-- Preorder listing of the uids of all nodes of the tree. -/
def UTree.uids : UTree → List String
  | .mk u cs => u :: (cs.attach.map (fun c => c.1.uids)).flatten
decreasing_by
  have := List.sizeOf_lt_of_mem c.2
  simp only [UTree.mk.sizeOf_spec]
  omega

/-- The (parent uid, child uid) pairs of all edges of the tree. -/
def UTree.edgePairs : UTree → List (String × String)
  | .mk u cs =>
    cs.map (fun c => (u, c.uid)) ++
      (cs.attach.map (fun c => c.1.edgePairs)).flatten
decreasing_by
  have := List.sizeOf_lt_of_mem c.2
  simp only [UTree.mk.sizeOf_spec]
  omega

/-- A proper node set: all uids distinct and none empty (uids are real
identifiers; the empty string is not a usable uid because the script
tests `edge.target` for truthiness). -/
def UTree.WF (t : UTree) : Prop :=
  t.uids.Nodup ∧ ∀ u ∈ t.uids, u ≠ ""

instance : DecidablePred UTree.WF := fun t => by
  unfold UTree.WF; infer_instance

/-- `s` occurs as a subtree of `t`. -/
inductive UTree.Occurs : UTree → UTree → Prop
  | refl (t : UTree) : UTree.Occurs t t
  | child {s c t : UTree} : c ∈ t.children → UTree.Occurs s c →
      UTree.Occurs s t

/-! ### Basic lemmas -/

theorem UTree.my_ind {P : UTree → Prop}
    (h : ∀ u cs, (∀ c ∈ cs, P c) → P (.mk u cs)) : ∀ t, P t
  | .mk u cs => h u cs (fun c hc => UTree.my_ind h c)
decreasing_by
  have := List.sizeOf_lt_of_mem hc
  simp only [UTree.mk.sizeOf_spec]
  omega

theorem UTree.size_mk (u : String) (cs : List UTree) :
    (UTree.mk u cs).size = 1 + (cs.map UTree.size).sum := by
  simp only [UTree.size, List.attach_map_coe]

theorem UTree.uids_mk (u : String) (cs : List UTree) :
    (UTree.mk u cs).uids = u :: (cs.map UTree.uids).flatten := by
  simp only [UTree.uids, List.attach_map_coe]

theorem UTree.edgePairs_mk (u : String) (cs : List UTree) :
    (UTree.mk u cs).edgePairs =
      cs.map (fun c => (u, c.uid)) ++ (cs.map UTree.edgePairs).flatten := by
  simp only [UTree.edgePairs, List.attach_map_coe]

/-! ## Claim theorems -/

/-- C2, counterexample: the claim that the glow is global is false for
the output box.  With the non-empty highlight set `["b9"]` the input box
does get the glow, but the structured output box of a leaf with uid
`"l1"` (not in the set) does not: the output-box glow is keyed on the
leaf's own membership in the highlight set (line 480), not on the set
being non-empty. -/
theorem glow_not_global_cex :
    (["b9"] : List String) ≠ [] ∧
    inputGlow ["b9"] = true ∧
    outputGlow ["b9"] "l1" = false := by
  refine ⟨by decide, by decide, by decide⟩

/-- C2, amended: the input box's glow is global — it fires exactly when
the highlight set is non-empty, regardless of which uids it holds — but
the structured output box's glow is per-node: it fires exactly when the
owning leaf's uid is a member of the highlight set. -/
theorem glow_amended (hs : List String) (u : String) :
    (inputGlow hs = true ↔ hs ≠ []) ∧
    (outputGlow hs u = true ↔ u ∈ hs) := by
  constructor
  · simp [inputGlow, highlightSetSize, List.length_pos, List.dedup_eq_nil]
  · simp [outputGlow]

/-- C8: an edge's connector uses the highlighted stroke width and the
highlighted arrowhead marker iff both endpoint uids are in the
highlight set; with highlight set `{A, B}` the edge `A→B` is highlighted
and the edge `B→C` is not. -/
theorem edge_highlight_iff (hs : List String) (s t : String) :
    (edgeStrokeWidth hs s t = HIGHLIGHT_PENWIDTH_EDGE ↔ s ∈ hs ∧ t ∈ hs) ∧
    (edgeMarker hs s t = "url(#arrowhead-highlight)" ↔ s ∈ hs ∧ t ∈ hs) ∧
    edgeStrokeWidth ["A", "B"] "A" "B" = HIGHLIGHT_PENWIDTH_EDGE ∧
    edgeMarker ["A", "B"] "A" "B" = "url(#arrowhead-highlight)" ∧
    edgeStrokeWidth ["A", "B"] "B" "C" = BASE_PENWIDTH ∧
    edgeMarker ["A", "B"] "B" "C" = "url(#arrowhead)" := by
  have hne : HIGHLIGHT_PENWIDTH_EDGE ≠ BASE_PENWIDTH := by
    norm_num [HIGHLIGHT_PENWIDTH_EDGE, BASE_PENWIDTH]
  refine ⟨?_, ?_, rfl, rfl, rfl, rfl⟩
  · unfold edgeStrokeWidth isHighlightedEdge
    split
    · simp_all
    · simp_all [Ne.symm hne]
  · unfold edgeMarker isHighlightedEdge
    split
    · simp_all
    · simp_all

/-- C10: an optional string field that is present but empty behaves as
if it were absent.  An empty `input` yields no input band (no box, no
dashed connector), zero reserved header height, and a canvas height
equal to the no-input one; a leaf with empty `output` (resp. `parser`)
is sized and rendered exactly like one with no output (resp. parser)
and gets no output (resp. parser) annotation box. -/
theorem empty_optional_fields :
    inputBlockHeight (some "") = inputBlockHeight none ∧
    inputBlockHeight (some "") = 0 ∧
    renderInputBand (some "") = renderInputBand none ∧
    renderInputBand (some "") = false ∧
    (∀ th : ℚ, finalSvgHeight th (some "") = finalSvgHeight th none) ∧
    (∀ n : RawNode,
      calcHeight { n with output := some "" } =
        calcHeight { n with output := none } ∧
      calcHeight { n with parser := some "" } =
        calcHeight { n with parser := none } ∧
      calcWidth { n with parser := some "" } =
        calcWidth { n with parser := none } ∧
      rendersOutputBox { n with output := some "" } = false ∧
      rendersParserBox { n with parser := some "" } = false) := by
  refine ⟨rfl, rfl, rfl, rfl, ?_, ?_⟩
  · intro th
    simp [finalSvgHeight, inputBlockHeight, strTruthy]
  · intro n
    refine ⟨?_, ?_, ?_, ?_, ?_⟩ <;>
      simp [calcHeight, calcWidth, rendersOutputBox, rendersParserBox,
        strTruthy]

theorem takeWhile_append_all {α : Type _} {p : α → Bool} :
    ∀ (l₁ l₂ : List α), (∀ a ∈ l₁, p a = true) →
      (l₁ ++ l₂).takeWhile p = l₁ ++ l₂.takeWhile p := by
  intro l₁ l₂ h
  induction l₁ with
  | nil => simp
  | cons a t ih =>
    have ha := h a (List.mem_cons_self a t)
    have iht := ih (fun b hb => h b (List.mem_cons_of_mem a hb))
    simp [List.takeWhile_cons, ha, iht]

theorem dropWhile_append_all {α : Type _} {p : α → Bool} :
    ∀ (l₁ l₂ : List α), (∀ a ∈ l₁, p a = true) →
      (l₁ ++ l₂).dropWhile p = l₂.dropWhile p := by
  intro l₁ l₂ h
  induction l₁ with
  | nil => simp
  | cons a t ih =>
    have ha := h a (List.mem_cons_self a t)
    have iht := ih (fun b hb => h b (List.mem_cons_of_mem a hb))
    simp [List.dropWhile_cons, ha, iht]

theorem dropWhile_head_false {α : Type _} {p : α → Bool} :
    ∀ {l : List α} {c : α} {rest : List α},
      l.dropWhile p = c :: rest → p c = false := by
  intro l
  induction l with
  | nil => intro c rest h; simp [List.dropWhile] at h
  | cons a t ih =>
    intro c rest h
    rw [List.dropWhile_cons] at h
    by_cases hp : p a
    · rw [if_pos hp] at h; exact ih h
    · rw [if_neg hp] at h
      cases h
      simpa using hp

/-- The regex match succeeds exactly on strings of the shape
`t ++ "(" ++ v ++ ")"` with `t` nonempty and `'('`-free and `v`
`')'`-free, and then returns that decomposition. -/
theorem matchOutput_eq_some_iff (s t v : List Char) :
    matchOutput s = some (t, v) ↔
      (s = t ++ '(' :: (v ++ [')']) ∧ t ≠ [] ∧ '(' ∉ t ∧ ')' ∉ v) := by
  constructor
  · intro h
    unfold matchOutput at h
    by_cases hd : s.dropWhile (fun c => c ≠ '(') = []
    · rw [if_pos hd] at h; simp at h
    · rw [if_neg hd] at h
      by_cases hT : s.takeWhile (fun c => c ≠ '(') = []
      · rw [if_pos hT] at h; simp at h
      · rw [if_neg hT] at h
        rcases hdrop : s.dropWhile (fun c => c ≠ '(') with _ | ⟨c, rest⟩
        · exact absurd hdrop hd
        · rw [hdrop] at h
          have hc : c = '(' := by
            have := dropWhile_head_false hdrop
            simpa using this
          by_cases hP : rest.getLast? = some ')' ∧ ')' ∉ rest.dropLast
          · rw [List.tail_cons, if_pos hP] at h
            obtain ⟨ht, hv⟩ : s.takeWhile (fun c => c ≠ '(') = t ∧
                rest.dropLast = v := by
              have := Option.some.inj h
              exact ⟨congrArg Prod.fst this, congrArg Prod.snd this⟩
            obtain ⟨ys, hys⟩ := List.getLast?_eq_some_iff.mp hP.1
            refine ⟨?_, ?_, ?_, ?_⟩
            · have hsplit := List.takeWhile_append_dropWhile
                (p := fun c => decide (c ≠ '(')) (l := s)
              rw [ht, hdrop, hc] at hsplit
              have hrest : rest = v ++ [')'] := by
                rw [← hv, hys, List.dropLast_concat]
              rw [← hsplit, hrest]
            · rw [← ht]; exact hT
            · intro hmem
              rw [← ht] at hmem
              have := List.mem_takeWhile_imp hmem
              simp at this
            · rw [← hv]; exact hP.2
          · rw [List.tail_cons, if_neg hP] at h; simp at h
  · rintro ⟨hs, hne, hpt, hpv⟩
    have hall : ∀ a ∈ t, (fun c => decide (c ≠ '(')) a = true := by
      intro a ha
      simp only [decide_eq_true_eq]
      intro hEq; exact hpt (hEq ▸ ha)
    have hdrop : s.dropWhile (fun c => c ≠ '(') = '(' :: (v ++ [')']) := by
      rw [hs, dropWhile_append_all t _ hall, List.dropWhile_cons]
      simp
    have htake : s.takeWhile (fun c => c ≠ '(') = t := by
      rw [hs, takeWhile_append_all t _ hall, List.takeWhile_cons]
      simp
    unfold matchOutput
    rw [hdrop, htake, if_neg (List.cons_ne_nil _ _), if_neg hne,
      List.tail_cons]
    rw [if_pos ⟨List.getLast?_concat v, by rw [List.dropLast_concat]; exact hpv⟩,
      List.dropLast_concat]

/-- C9: a leaf output is rendered as separate type and value segments
exactly when the whole string matches `type(value)` (one or more
non-`'('` characters, `'('`, zero or more non-`')'` characters, `')'`);
`"int(42)"` splits into type `"int"` and value `"42"`, while
`"no-parens-here"` falls back to a single plain-text label; only the
value segment is truncated, at the fixed width `MAX_VALUE_WIDTH - 2`,
and the type segment and the plain-text fallback are drawn untruncated. -/
theorem output_parsing :
    renderOutput ("int(42)".toList) =
      .structured ("int".toList) ("42".toList) ∧
    renderOutput ("no-parens-here".toList) =
      .plain ("no-parens-here".toList) ∧
    (∀ s t v : List Char, matchOutput s = some (t, v) ↔
      (s = t ++ '(' :: (v ++ [')']) ∧ t ≠ [] ∧ '(' ∉ t ∧ ')' ∉ v)) ∧
    (∀ s t v : List Char, matchOutput s = some (t, v) →
      renderOutput s = .structured t (truncateText v (MAX_VALUE_WIDTH - 2))) ∧
    (∀ s : List Char, matchOutput s = none → renderOutput s = .plain s) := by
  have h1 : matchOutput ("int(42)".toList) =
      some ("int".toList, "42".toList) := by decide
  have h2 : truncateText ("42".toList) (MAX_VALUE_WIDTH - 2) = "42".toList := by
    unfold truncateText
    rw [if_pos]
    norm_num [MONO_CHAR_WIDTH, MAX_VALUE_WIDTH, NODE_FONT_SIZE, ellipsisChars]
  have h3 : matchOutput ("no-parens-here".toList) = none := by decide
  refine ⟨?_, ?_, matchOutput_eq_some_iff, ?_, ?_⟩
  · simp only [renderOutput, h1, h2]
  · simp only [renderOutput, h3]
  · intro s t v h; simp only [renderOutput, h]
  · intro s h; simp only [renderOutput, h]

theorem ellipsisChars_length : ellipsisChars.length = 3 := rfl

theorem mono_char_width_pos : (0 : ℚ) < MONO_CHAR_WIDTH := by
  norm_num [MONO_CHAR_WIDTH, NODE_FONT_SIZE]

/-- In the middle branch (text too wide, at least 2 characters fit) the
kept text splits `⌈k/2⌉` front / `k - ⌈k/2⌉` back around the ellipsis,
the result length is `k + 3`, and the result fits in `maxWidth`. -/
theorem truncateText_mid (s : List Char) (w : ℚ)
    (h1 : ¬ (s.length : ℚ) * MONO_CHAR_WIDTH ≤ w)
    (h2 : 1 < keepCharsOf w) :
    truncateText s w =
      s.take (leftCharsOf w).toNat ++ ellipsisChars ++
        s.drop (s.length - (keepCharsOf w - leftCharsOf w).toNat) ∧
    (truncateText s w).length = (keepCharsOf w).toNat + 3 ∧
    ((truncateText s w).length : ℚ) * MONO_CHAR_WIDTH ≤ w := by
  have hc := mono_char_width_pos
  have heq : truncateText s w =
      s.take (leftCharsOf w).toNat ++ ellipsisChars ++
        s.drop (s.length - (keepCharsOf w - leftCharsOf w).toNat) := by
    rw [truncateText, if_neg h1, if_neg (by omega)]
  set k : ℤ := keepCharsOf w with hk
  set l : ℤ := leftCharsOf w with hl
  -- floor bound upward: k ≤ (w - 3c)/c, hence k*c + 3*c ≤ w
  have hfl : (k : ℚ) ≤ (w - 3 * MONO_CHAR_WIDTH) / MONO_CHAR_WIDTH := by
    rw [hk, keepCharsOf]
    push_cast [ellipsisChars_length]
    exact Int.floor_le _
  have hkc : (k : ℚ) * MONO_CHAR_WIDTH ≤ w - 3 * MONO_CHAR_WIDTH :=
    (le_div_iff₀ hc).mp hfl
  -- k is strictly less than length - 3
  have hklen : k + 3 < (s.length : ℤ) := by
    have hwlt : w < (s.length : ℚ) * MONO_CHAR_WIDTH := lt_of_not_le h1
    have : (k : ℚ) * MONO_CHAR_WIDTH < ((s.length : ℚ) - 3) * MONO_CHAR_WIDTH := by
      have : ((s.length : ℚ) - 3) * MONO_CHAR_WIDTH =
          (s.length : ℚ) * MONO_CHAR_WIDTH - 3 * MONO_CHAR_WIDTH := by ring
      rw [this]
      linarith
    have hq : (k : ℚ) < (s.length : ℚ) - 3 :=
      lt_of_mul_lt_mul_right (by linarith) (le_of_lt hc)
    have hq' : (k : ℚ) + 3 < (s.length : ℚ) := by linarith
    exact_mod_cast hq'
  -- ceil bounds: 1 ≤ l ≤ k
  have hl1 : 1 ≤ l := by
    have hpos : ((0 : ℤ) : ℚ) < (k : ℚ) / 2 := by
      have hk1 : (1 : ℚ) < (k : ℚ) := by exact_mod_cast h2
      push_cast
      linarith
    have h0 : (0 : ℤ) < ⌈(k : ℚ) / 2⌉ := Int.lt_ceil.mpr hpos
    rw [hl, leftCharsOf, ← hk]
    omega
  have hlk : l ≤ k := by
    rw [hl, leftCharsOf, ← hk]
    apply Int.ceil_le.mpr
    have hk0 : (0 : ℚ) ≤ (k : ℚ) := by
      have : (1 : ℚ) < (k : ℚ) := by exact_mod_cast h2
      linarith
    linarith
  have hltake : (s.take l.toNat).length = l.toNat := by
    rw [List.length_take]
    omega
  have hldrop : (s.drop (s.length - (k - l).toNat)).length = (k - l).toNat := by
    rw [List.length_drop]
    omega
  refine ⟨heq, ?_, ?_⟩
  · rw [heq]
    simp only [List.length_append, hltake, hldrop, ellipsisChars_length]
    omega
  · rw [heq]
    simp only [List.length_append, hltake, hldrop, ellipsisChars_length]
    have hlen : ((l.toNat + 3 + (k - l).toNat : ℕ) : ℚ) = (k : ℚ) + 3 := by
      push_cast
      have h3 : (l.toNat : ℚ) = (l : ℚ) := by exact_mod_cast Int.toNat_of_nonneg (by omega)
      have h4 : ((k - l).toNat : ℚ) = ((k - l : ℤ) : ℚ) := by
        exact_mod_cast Int.toNat_of_nonneg (by omega)
      rw [h3, h4]
      push_cast
      ring
    rw [hlen]
    have : ((k : ℚ) + 3) * MONO_CHAR_WIDTH =
        (k : ℚ) * MONO_CHAR_WIDTH + 3 * MONO_CHAR_WIDTH := by ring
    rw [this]
    linarith

/-- C5: truncation returns the text unchanged when it fits
(`length * charWidth ≤ maxWidth`); otherwise, with
`k = ⌊(maxWidth - ellipsisWidth)/charWidth⌋`, it returns only the
ellipsis when `k ≤ 1` (fewer than 2 characters fit), and otherwise
keeps `⌈k/2⌉` characters from the front and `k - ⌈k/2⌉` from the end
around a middle `"..."` (the left half gets the extra character when
`k` is odd), for `k + 3` characters in total. -/
theorem truncation_rule (s : List Char) (w : ℚ) :
    (((s.length : ℚ) * MONO_CHAR_WIDTH ≤ w) → truncateText s w = s) ∧
    (¬ ((s.length : ℚ) * MONO_CHAR_WIDTH ≤ w) → keepCharsOf w ≤ 1 →
      truncateText s w = ellipsisChars) ∧
    (¬ ((s.length : ℚ) * MONO_CHAR_WIDTH ≤ w) → 1 < keepCharsOf w →
      truncateText s w =
        s.take (⌈(keepCharsOf w : ℚ) / 2⌉).toNat ++ ellipsisChars ++
          s.drop (s.length -
            (keepCharsOf w - ⌈(keepCharsOf w : ℚ) / 2⌉).toNat) ∧
      (truncateText s w).length = (keepCharsOf w).toNat + 3) := by
  refine ⟨?_, ?_, ?_⟩
  · intro h; rw [truncateText, if_pos h]
  · intro h1 h2; rw [truncateText, if_neg h1, if_pos h2]
  · intro h1 h2
    have h := truncateText_mid s w h1 h2
    exact ⟨h.1, h.2.1⟩

/-- Witness for C5 at a concrete input: `"abcdefghij"` at width 50 does
not fit (72 > 50), `k = 3`, so 2 characters are kept in front and 1 at
the end: the result is `"ab...j"`. -/
theorem truncation_rule_witness :
    truncateText ("abcdefghij".toList) 50 = "ab...j".toList ∧
    (truncateText ("abcdefghij".toList) 50).length = 6 := by
  have hfit : ¬ ((("abcdefghij".toList).length : ℚ) * MONO_CHAR_WIDTH ≤ 50) := by
    norm_num [MONO_CHAR_WIDTH, NODE_FONT_SIZE]
  have hk : keepCharsOf 50 = 3 := by
    rw [keepCharsOf]
    norm_num [ellipsisChars_length, MONO_CHAR_WIDTH, NODE_FONT_SIZE]
  have h := (truncation_rule ("abcdefghij".toList) 50).2.2 hfit (by rw [hk]; norm_num)
  rw [hk] at h
  have hceil : (⌈(((3 : ℤ) : ℚ)) / 2⌉ : ℤ) = 2 := by
    rw [Int.ceil_eq_iff]
    norm_num
  rw [hceil] at h
  refine ⟨?_, ?_⟩
  · rw [h.1]; decide
  · rw [h.2]; decide

/-- C6: truncation is idempotent at a fixed target width. -/
theorem truncation_idempotent (s : List Char) (w : ℚ) :
    truncateText (truncateText s w) w = truncateText s w := by
  by_cases h1 : (s.length : ℚ) * MONO_CHAR_WIDTH ≤ w
  · have e : truncateText s w = s := by rw [truncateText, if_pos h1]
    rw [e, truncateText, if_pos h1]
  · by_cases h2 : keepCharsOf w ≤ 1
    · have e : truncateText s w = ellipsisChars := by
        rw [truncateText, if_neg h1, if_pos h2]
      rw [e]
      by_cases h3 : ((ellipsisChars.length : ℚ)) * MONO_CHAR_WIDTH ≤ w
      · rw [truncateText, if_pos h3]
      · rw [truncateText, if_neg h3, if_pos h2]
    · have h := truncateText_mid s w h1 (by omega)
      rw [truncateText, if_pos h.2.2]

theorem sortKey_zero_or_one (h : HNode) : h.sortKey = 0 ∨ h.sortKey = 1 := by
  unfold HNode.sortKey
  rcases h.einfo with _ | ei
  · right; rfl
  · by_cases hb : ei.is_true = false
    · left; simp [hb]
    · right; simp [hb]

theorem insertStable_front (x : HNode) (hx : x.sortKey = 0) (l : List HNode) :
    insertStable x l = x :: l := by
  cases l with
  | nil => rfl
  | cons y ys =>
    rw [insertStable, if_neg]
    omega

theorem insertStable_mid (x : HNode) (hx : x.sortKey = 1) :
    ∀ (l₀ l₁ : List HNode), (∀ y ∈ l₀, y.sortKey = 0) →
      (∀ y ∈ l₁, y.sortKey = 1) →
      insertStable x (l₀ ++ l₁) = l₀ ++ x :: l₁ := by
  intro l₀ l₁ h₀ h₁
  induction l₀ with
  | nil =>
    cases l₁ with
    | nil => rfl
    | cons y ys =>
      rw [List.nil_append, insertStable, if_neg]
      · rfl
      · have := h₁ y (List.mem_cons_self y ys)
        omega
  | cons y t ih =>
    have hy := h₀ y (List.mem_cons_self y t)
    rw [List.cons_append, insertStable, if_pos (by omega)]
    rw [ih (fun b hb => h₀ b (List.mem_cons_of_mem y hb))]
    rfl

/-- A stable ascending sort by a two-valued key keeps all key-0
elements first and all key-1 elements second, each block in original
order. -/
theorem sortChildren_eq (cs : List HNode) :
    sortChildren cs =
      cs.filter (fun c => c.sortKey == 0) ++
        cs.filter (fun c => c.sortKey == 1) := by
  induction cs with
  | nil => rfl
  | cons x xs ih =>
    rw [sortChildren, ih]
    rcases sortKey_zero_or_one x with h0 | h1
    · rw [insertStable_front x h0]
      rw [List.filter_cons_of_pos (by simp [h0]),
        List.filter_cons_of_neg (by simp [h0])]
      rfl
    · rw [insertStable_mid x h1 _ _
        (fun y hy => by simpa using (List.mem_filter.mp hy).2)
        (fun y hy => by simpa using (List.mem_filter.mp hy).2)]
      rw [List.filter_cons_of_neg (by simp [h1]),
        List.filter_cons_of_pos (by simp [h1])]

theorem sortHierarchy_mk (u : String) (e : Option EdgeInfo)
    (cs : List HNode) :
    sortHierarchy (.mk u e cs) =
      .mk u e (sortChildren (cs.map sortHierarchy)) := by
  rw [sortHierarchy, List.attach_map_coe]

theorem sortHierarchy_sortKey (c : HNode) :
    (sortHierarchy c).sortKey = c.sortKey := by
  cases c with
  | mk u e cs => rw [sortHierarchy_mk]; rfl

/-- C7: after the pre-layout sort, at every node of the hierarchy the
children whose inbound edge label is case-insensitively `"false"` or a
default/custom label (comparator key 0) all precede, in original
relative order, every child whose inbound edge label is
case-insensitively `"true"` (comparator key 1); the comparator is
stable, so equal keys keep insertion order. -/
theorem sibling_sort (u : String) (e : Option EdgeInfo) (cs : List HNode) :
    (sortHierarchy (HNode.mk u e cs)).children =
      ((cs.map sortHierarchy).filter (fun c => c.sortKey == 0)) ++
        ((cs.map sortHierarchy).filter (fun c => c.sortKey == 1)) ∧
    (∀ c : HNode, (sortHierarchy c).sortKey = c.sortKey) ∧
    (∀ (uid : String) (lab : String) (cs' : List HNode),
      (HNode.mk uid (some (mkEdgeInfo lab)) cs').sortKey =
        if lab.toLower = "true" then 1 else 0) ∧
    (∀ (uid : String) (cs' : List HNode),
      (HNode.mk uid none cs').sortKey = 1) := by
  refine ⟨?_, sortHierarchy_sortKey, ?_, ?_⟩
  · rw [sortHierarchy_mk]
    exact sortChildren_eq _
  · intro uid lab cs'
    unfold HNode.sortKey mkEdgeInfo
    by_cases hl : lab.toLower = "true"
    · simp [HNode.einfo, hl]
    · simp [HNode.einfo, hl]
  · intro uid cs'
    rfl

/-! ### Concrete demo data -/

def demoA : RawNode :=
  { uid := "A", leaf := false, label := some "a",
    typ := none, parser := none, examples := none, output := none }

def demoB : RawNode :=
  { uid := "B", leaf := false, label := some "b",
    typ := none, parser := none, examples := none, output := none }

/-- C1, counterexample: with known nodes `A` and `B` and the single edge
`X → B` whose source `X` is unknown, the edge is not without effect:
its target `B` is still recorded as having an incoming edge, so the
builder returns `A` as unique root, whereas with the edge removed both
`A` and `B` are roots and the builder fails.  This contradicts the
claim that an edge referencing an unknown uid has no effect on root
selection and that only an edge with both endpoints resolving records
the child uid as having an incoming edge. -/
theorem unknown_edge_cex :
    resolves [demoA, demoB] "X" = false ∧
    hasIncoming [Edge.mk "X" "B" none] "B" = true ∧
    buildHierarchy [demoA, demoB] [Edge.mk "X" "B" none] = some demoA ∧
    buildHierarchy [demoA, demoB] [] = none := by
  refine ⟨by decide, by decide, by decide, by decide⟩

/-- C1, amended: the builder selects as root the unique node recorded
as having no incoming edge, and only an edge whose source and target
both resolve attaches the child (edges with an unknown endpoint
contribute nothing to any children list or edge metadata); but the
"has incoming edge" record is made for every edge whose target field
is non-empty, whether or not either endpoint resolves, so an edge
referencing an unknown uid can still affect root selection. -/
theorem root_selection_amended (nodes : List RawNode) (edges : List Edge) :
    (∀ r, buildHierarchy nodes edges = some r →
      hasIncoming edges r.uid = false ∧
      r.uid ∈ nodes.map (fun n => n.uid) ∧
      ∀ n ∈ nodes, hasIncoming edges n.uid = false → n.uid = r.uid) ∧
    (∀ u, hasIncoming edges u = true ↔
      (u ≠ "" ∧ ∃ e ∈ edges, e.target = u)) ∧
    (∀ p, childUidsOf nodes edges p =
      childUidsOf nodes
        (edges.filter (fun e => resolves nodes e.source &&
          resolves nodes e.target)) p) ∧
    (∀ t, edgeInfoOf nodes edges t =
      edgeInfoOf nodes
        (edges.filter (fun e => resolves nodes e.source &&
          resolves nodes e.target)) t) := by
  have hatt : attachedEdges nodes
      (edges.filter (fun e => resolves nodes e.source &&
        resolves nodes e.target)) = attachedEdges nodes edges := by
    rw [attachedEdges, attachedEdges, List.filter_filter]
    congr 1
    funext e
    rw [Bool.and_self]
  refine ⟨?_, ?_, ?_, ?_⟩
  · intro r hr
    rw [buildHierarchy] at hr
    by_cases hne : nodes.isEmpty
    · rw [if_pos hne] at hr; exact absurd hr (by simp)
    · rw [if_neg hne] at hr
      rcases hroots : rootsOf nodes edges with _ | ⟨r', tl⟩
      · rw [hroots] at hr; exact absurd hr (by simp)
      · cases tl with
        | cons _ _ => rw [hroots] at hr; exact absurd hr (by simp)
        | nil =>
          rw [hroots] at hr
          have hr2 : lookupNode nodes r'.uid = some r := hr
          have hr'mem : r' ∈ nodes.filter
              (fun n => !hasIncoming edges n.uid) := by
            have : r' ∈ rootsOf nodes edges := by
              rw [hroots]; exact List.mem_cons_self _ _
            rw [rootsOf] at this; exact this
          have hr'root : hasIncoming edges r'.uid = false := by
            have := (List.mem_filter.mp hr'mem).2
            simpa using this
          have hruid : r.uid = r'.uid := by
            have hpred := List.find?_some hr2
            simpa using hpred
          have hrmem : r ∈ nodes := by
            have := List.mem_of_find?_eq_some hr2
            exact List.mem_reverse.mp this
          refine ⟨hruid ▸ hr'root, List.mem_map.mpr ⟨r, hrmem, rfl⟩, ?_⟩
          intro n hn hni
          have : n ∈ rootsOf nodes edges :=
            List.mem_filter.mpr ⟨hn, by simp [hni]⟩
          rw [hroots] at this
          have : n = r' := by simpa using this
          rw [this, hruid]
  · intro u
    rw [hasIncoming, childrenUidsList]
    simp only [List.elem_iff, List.mem_map, List.mem_filter]
    constructor
    · rintro ⟨e, ⟨he, ht⟩, rfl⟩
      exact ⟨by simpa using ht, e, he, rfl⟩
    · rintro ⟨hu, e, he, rfl⟩
      exact ⟨e, ⟨he, by simpa using hu⟩, rfl⟩
  · intro p
    rw [childUidsOf, childUidsOf, hatt]
  · intro t
    rw [edgeInfoOf, edgeInfoOf, hatt]

/-- Witness for the amended C1 at the counterexample input: the edge
`X → B` records `B` as having an incoming edge even though `X` is
unknown. -/
theorem root_selection_amended_witness :
    hasIncoming [Edge.mk "X" "B" none] "B" = true :=
  ((root_selection_amended [demoA, demoB] [Edge.mk "X" "B" none]).2.1
    "B").mpr ⟨by decide, Edge.mk "X" "B" none, by decide, rfl⟩

/-- The fatal conditions named by the specification: a missing
top-level field, an empty node list, or a computed root count other
than one. -/
def fatalCondition (p : Payload) : Prop :=
  p.branches = none ∨ p.leaves = none ∨ p.edges = none ∨
  p.highlights = none ∨
  ∃ bs ls es, p.branches = some bs ∧ p.leaves = some ls ∧
    p.edges = some es ∧
    (nodesOf bs ls = [] ∨ (rootsOf (nodesOf bs ls) es).length ≠ 1)

theorem lookupNode_isSome_of_mem {nodes : List RawNode} {r : RawNode}
    (h : r ∈ nodes) : (lookupNode nodes r.uid).isSome := by
  rw [lookupNode, List.find?_isSome]
  exact ⟨r, List.mem_reverse.mpr h, by simp⟩

theorem buildHierarchy_eq_none_iff (nodes : List RawNode)
    (edges : List Edge) :
    buildHierarchy nodes edges = none ↔
      nodes = [] ∨ (rootsOf nodes edges).length ≠ 1 := by
  rw [buildHierarchy]
  by_cases hne : nodes.isEmpty
  · rw [if_pos hne]
    simp [List.isEmpty_iff.mp hne]
  · rw [if_neg hne]
    rcases hroots : rootsOf nodes edges with _ | ⟨r, tl⟩
    · simp [List.isEmpty_iff.not.mp hne, hroots]
    · cases tl with
      | nil =>
        have hr : r ∈ nodes := by
          have : r ∈ rootsOf nodes edges := by
            rw [hroots]; exact List.mem_cons_self _ _
          exact List.mem_filter.mp this |>.1
        have hsome := lookupNode_isSome_of_mem hr
        constructor
        · intro h
          have h2 : lookupNode nodes r.uid = none := h
          rw [h2] at hsome
          simp at hsome
        · intro h
          rcases h with h | h
          · simp [h] at hne
          · simp at h
      | cons r' tl' =>
        simp [List.isEmpty_iff.not.mp hne, hroots]

/-- C4: rendering fails — non-zero exit code, nothing on standard
output — exactly when one of the fatal conditions holds (a missing
`branches`/`leaves`/`edges`/`highlights` field, an empty node list, or
a computed root count of zero or more than one), and on any successful
render the single finished SVG document is the only standard output. -/
theorem fatal_conditions_iff (p : Payload) :
    (((mainResult p).2 ≠ 0 ∧ (mainResult p).1 = []) ↔ fatalCondition p) ∧
    ((mainResult p).2 = 0 → (mainResult p).1 = ["<svg>"]) := by
  obtain ⟨bs?, ls?, es?, hs?, inp⟩ := p
  cases bs? with
  | none => simp [mainResult, fatalCondition]
  | some bs =>
  cases ls? with
  | none => simp [mainResult, fatalCondition]
  | some ls =>
  cases es? with
  | none => simp [mainResult, fatalCondition]
  | some es =>
  cases hs? with
  | none => simp [mainResult, fatalCondition]
  | some hs =>
  rcases hb : buildHierarchy (nodesOf bs ls) es with _ | r
  · have hcond := (buildHierarchy_eq_none_iff (nodesOf bs ls) es).mp hb
    simp [mainResult, fatalCondition, hb, hcond]
  · have hcond : ¬ (nodesOf bs ls = [] ∨
        (rootsOf (nodesOf bs ls) es).length ≠ 1) := by
      intro hc
      have := (buildHierarchy_eq_none_iff (nodesOf bs ls) es).mpr hc
      rw [hb] at this
      simp at this
    simp [mainResult, fatalCondition, hb, hcond]

/-- Witness for C4 on the specification's concrete scenario payload
(one branch, two leaves, two valid edges): the render succeeds with
exit code 0 and emits exactly one SVG document. -/
theorem fatal_conditions_iff_witness :
    (mainResult
      { branches := some [Branch.mk "b1" "is_number?"],
        leaves := some
          [Leaf.mk "l1" (some "float") none none (some "float(3.14)"),
           Leaf.mk "l2" (some "string") none none none],
        edges := some
          [Edge.mk "b1" "l1" (some "true"),
           Edge.mk "b1" "l2" (some "false")],
        highlights := some ["b1", "l1"],
        input := some "3.14" }).1 = ["<svg>"] := by
  apply (fatal_conditions_iff _).2
  decide

theorem UTree.uid_mem_uids (t : UTree) : t.uid ∈ t.uids := by
  cases t with
  | mk u cs => rw [uids_mk]; exact List.mem_cons_self _ _

theorem UTree.length_uids : ∀ t : UTree, t.uids.length = t.size := by
  apply UTree.my_ind
  intro u cs ih
  rw [uids_mk, size_mk, List.length_cons, List.length_flatten,
    List.map_map]
  have : cs.map (List.length ∘ UTree.uids) = cs.map UTree.size :=
    List.map_congr_left (fun c hc => by simp [ih c hc])
  rw [this, Nat.add_comm]

theorem UTree.edgePairs_mem_uids :
    ∀ t : UTree, ∀ pr ∈ t.edgePairs, pr.1 ∈ t.uids ∧ pr.2 ∈ t.uids := by
  apply UTree.my_ind
  intro u cs ih pr hpr
  rw [edgePairs_mk] at hpr
  rw [uids_mk]
  rcases List.mem_append.mp hpr with h | h
  · obtain ⟨c, hc, rfl⟩ := List.mem_map.mp h
    constructor
    · exact List.mem_cons_self _ _
    · refine List.mem_cons_of_mem _ (List.mem_flatten.mpr ⟨c.uids, ?_, ?_⟩)
      · exact List.mem_map.mpr ⟨c, hc, rfl⟩
      · exact c.uid_mem_uids
  · obtain ⟨l, hl, hprl⟩ := List.mem_flatten.mp h
    obtain ⟨c, hc, rfl⟩ := List.mem_map.mp hl
    obtain ⟨h1, h2⟩ := ih c hc pr hprl
    constructor <;>
      exact List.mem_cons_of_mem _ (List.mem_flatten.mpr
        ⟨c.uids, List.mem_map.mpr ⟨c, hc, rfl⟩, by assumption⟩)

/-- Every edge target lies in the uids of the children subtrees. -/
theorem UTree.edgePairs_target_mem_tail (u : String) (cs : List UTree) :
    ∀ pr ∈ (UTree.mk u cs).edgePairs, pr.2 ∈ (cs.map UTree.uids).flatten := by
  intro pr hpr
  rw [edgePairs_mk] at hpr
  rcases List.mem_append.mp hpr with h | h
  · obtain ⟨c, hc, rfl⟩ := List.mem_map.mp h
    exact List.mem_flatten.mpr ⟨c.uids, List.mem_map.mpr ⟨c, hc, rfl⟩,
      c.uid_mem_uids⟩
  · obtain ⟨l, hl, hprl⟩ := List.mem_flatten.mp h
    obtain ⟨c, hc, rfl⟩ := List.mem_map.mp hl
    exact List.mem_flatten.mpr ⟨c.uids, List.mem_map.mpr ⟨c, hc, rfl⟩,
      (c.edgePairs_mem_uids pr hprl).2⟩

/-- With distinct uids the root uid is never an edge target. -/
theorem UTree.root_not_target (t : UTree) (hnd : t.uids.Nodup) :
    ∀ pr ∈ t.edgePairs, pr.2 ≠ t.uid := by
  cases t with
  | mk u cs =>
    intro pr hpr
    have h2 := UTree.edgePairs_target_mem_tail u cs pr hpr
    rw [uids_mk] at hnd
    have := (List.nodup_cons.mp hnd).1
    rw [UTree.uid]
    intro hEq
    exact this (hEq ▸ h2)

/-- Every non-root uid is an edge target. -/
theorem UTree.nonroot_is_target :
    ∀ t : UTree, ∀ v ∈ t.uids, v ≠ t.uid →
      ∃ pr ∈ t.edgePairs, pr.2 = v := by
  apply UTree.my_ind
  intro u cs ih v hv hne
  rw [uids_mk] at hv
  rw [UTree.uid] at hne
  rcases List.mem_cons.mp hv with h | h
  · exact absurd h hne
  · obtain ⟨l, hl, hvl⟩ := List.mem_flatten.mp h
    obtain ⟨c, hc, rfl⟩ := List.mem_map.mp hl
    by_cases hvc : v = c.uid
    · refine ⟨(u, c.uid), ?_, hvc.symm⟩
      rw [edgePairs_mk]
      exact List.mem_append.mpr (Or.inl (List.mem_map.mpr ⟨c, hc, rfl⟩))
    · obtain ⟨pr, hpr, hpr2⟩ := ih c hc v hvl (by
        intro hEq; exact hvc hEq)
      refine ⟨pr, ?_, hpr2⟩
      rw [edgePairs_mk]
      exact List.mem_append.mpr (Or.inr (List.mem_flatten.mpr
        ⟨c.edgePairs, List.mem_map.mpr ⟨c, hc, rfl⟩, hpr⟩))

theorem UTree.Occurs.uid_mem {s t : UTree} (h : UTree.Occurs s t) :
    s.uid ∈ t.uids := by
  induction h with
  | refl => exact UTree.uid_mem_uids _
  | @child c t' hc hocc ih =>
    cases t' with
    | mk u cs =>
      rw [UTree.uids_mk]
      refine List.mem_cons_of_mem _ (List.mem_flatten.mpr
        ⟨c.uids, List.mem_map.mpr ⟨c, ?_, rfl⟩, ih⟩)
      rw [UTree.children] at hc
      exact hc

theorem UTree.Occurs.trans_child {s c t : UTree} (h : UTree.Occurs s t)
    (hc : c ∈ s.children) : UTree.Occurs c t := by
  induction h with
  | refl => exact UTree.Occurs.child hc (UTree.Occurs.refl c)
  | @child c' t' hm hocc ih => exact UTree.Occurs.child hm ih

/-- If `x` is not a uid of `c`, no edge of `c` has source `x`. -/
theorem UTree.filter_source_eq_nil (c : UTree) (x : String)
    (hx : x ∉ c.uids) :
    c.edgePairs.filter (fun pr => pr.1 == x) = [] := by
  rw [List.filter_eq_nil_iff]
  intro pr hpr
  simp only [beq_iff_eq]
  intro hEq
  exact hx (hEq ▸ (c.edgePairs_mem_uids pr hpr).1)

/-- Among sibling subtrees with globally distinct uids, only the one
containing `x` contributes edges with source `x`. -/
theorem UTree.filter_flatten_eq (x : String) :
    ∀ (cs : List UTree), ((cs.map UTree.uids).flatten).Nodup →
      ∀ c₀ ∈ cs, x ∈ c₀.uids →
      ((cs.map (fun c =>
        c.edgePairs.filter (fun pr => pr.1 == x))).flatten) =
        c₀.edgePairs.filter (fun pr => pr.1 == x) := by
  intro cs
  induction cs with
  | nil => intro _ c₀ h; simp at h
  | cons c rest ih =>
    intro hnd c₀ hc₀ hx
    have hnd2 : (c.uids ++ (rest.map UTree.uids).flatten).Nodup := by
      simpa using hnd
    obtain ⟨hndc, hndrest, hdisj⟩ := List.nodup_append.mp hnd2
    rw [List.map_cons, List.flatten_cons]
    rcases List.mem_cons.mp hc₀ with rfl | hmem
    · have hrest : (rest.map (fun c =>
          c.edgePairs.filter (fun pr => pr.1 == x))).flatten = [] := by
        rw [List.flatten_eq_nil_iff]
        intro l hl
        obtain ⟨c', hc', rfl⟩ := List.mem_map.mp hl
        refine UTree.filter_source_eq_nil c' x (fun hmem' => ?_)
        exact hdisj hx (List.mem_flatten.mpr
          ⟨c'.uids, List.mem_map.mpr ⟨c', hc', rfl⟩, hmem'⟩)
      rw [hrest, List.append_nil]
    · have hxflat : x ∈ (rest.map UTree.uids).flatten :=
        List.mem_flatten.mpr ⟨c₀.uids, List.mem_map.mpr ⟨c₀, hmem, rfl⟩, hx⟩
      have hhead : c.edgePairs.filter (fun pr => pr.1 == x) = [] :=
        UTree.filter_source_eq_nil c x (fun hmem' => hdisj hmem' hxflat)
      rw [hhead, List.nil_append]
      exact ih hndrest c₀ hmem hx

/-- Localization: in a tree with distinct uids, the edges whose source
is the uid of an occurring subtree `s` are exactly `s`'s edges to its
own children, in order. -/
theorem UTree.edgesFrom_eq {s t : UTree} (hocc : UTree.Occurs s t)
    (hnd : t.uids.Nodup) :
    (t.edgePairs.filter (fun pr => pr.1 == s.uid)).map (fun pr => pr.2) =
      s.children.map UTree.uid := by
  induction hocc with
  | refl =>
    cases s with
    | mk u cs =>
      rw [UTree.uids_mk] at hnd
      obtain ⟨hu, hflat⟩ := List.nodup_cons.mp hnd
      rw [UTree.uid, UTree.children, UTree.edgePairs_mk, List.filter_append]
      have h1 : (cs.map (fun c => (u, c.uid))).filter
          (fun pr => pr.1 == u) = cs.map (fun c => (u, c.uid)) := by
        rw [List.filter_eq_self]
        intro pr hpr
        obtain ⟨c, hc, rfl⟩ := List.mem_map.mp hpr
        simp
      have h2 : ((cs.map UTree.edgePairs).flatten).filter
          (fun pr => pr.1 == u) = [] := by
        rw [List.filter_flatten, List.map_map, List.flatten_eq_nil_iff]
        intro l hl
        obtain ⟨c, hc, rfl⟩ := List.mem_map.mp hl
        refine UTree.filter_source_eq_nil c u (fun hmem' => ?_)
        exact hu (List.mem_flatten.mpr
          ⟨c.uids, List.mem_map.mpr ⟨c, hc, rfl⟩, hmem'⟩)
      rw [h1, h2, List.append_nil, List.map_map]
      rfl
  | @child c t' hc hocc ih =>
    cases t' with
    | mk u cs =>
      rw [UTree.children] at hc
      rw [UTree.uids_mk] at hnd
      obtain ⟨hu, hflat⟩ := List.nodup_cons.mp hnd
      have hsmem : s.uid ∈ c.uids := hocc.uid_mem
      have hsne : s.uid ≠ u := by
        intro hEq
        exact hu (hEq ▸ List.mem_flatten.mpr
          ⟨c.uids, List.mem_map.mpr ⟨c, hc, rfl⟩, hsmem⟩)
      rw [UTree.edgePairs_mk, List.filter_append]
      have h1 : (cs.map (fun c' => (u, c'.uid))).filter
          (fun pr => pr.1 == s.uid) = [] := by
        rw [List.filter_eq_nil_iff]
        intro pr hpr
        obtain ⟨c', hc', rfl⟩ := List.mem_map.mp hpr
        simp [Ne.symm hsne]
      have h2 : ((cs.map UTree.edgePairs).flatten).filter
          (fun pr => pr.1 == s.uid) =
          c.edgePairs.filter (fun pr => pr.1 == s.uid) := by
        rw [List.filter_flatten, List.map_map]
        exact UTree.filter_flatten_eq s.uid cs hflat c hc hsmem
      rw [h1, h2, List.nil_append]
      have hndc : c.uids.Nodup := by
        obtain ⟨hparts, _⟩ := List.nodup_flatten.mp hflat
        exact hparts c.uids (List.mem_map.mpr ⟨c, hc, rfl⟩)
      exact ih hndc

theorem resolves_iff (nodes : List RawNode) (v : String) :
    resolves nodes v = true ↔ v ∈ nodes.map (fun n => n.uid) := by
  rw [resolves, List.any_eq_true]
  simp

/-- When the edge list is exactly a tree's edge set over the node
list's uids, every edge resolves on both endpoints. -/
theorem attachedEdges_eq_self {nodes : List RawNode} {edges : List Edge}
    {t : UTree}
    (hn : (nodes.map (fun n => n.uid)).Perm t.uids)
    (he : (edges.map (fun e => (e.source, e.target))).Perm t.edgePairs) :
    attachedEdges nodes edges = edges := by
  rw [attachedEdges, List.filter_eq_self]
  intro e hee
  have hpe : (e.source, e.target) ∈ t.edgePairs :=
    he.mem_iff.mp (List.mem_map.mpr ⟨e, hee, rfl⟩)
  obtain ⟨h1, h2⟩ := t.edgePairs_mem_uids (e.source, e.target) hpe
  rw [Bool.and_eq_true]
  exact ⟨(resolves_iff nodes e.source).mpr (hn.mem_iff.mpr h1),
    (resolves_iff nodes e.target).mpr (hn.mem_iff.mpr h2)⟩

theorem childUids_perm {nodes : List RawNode} {edges : List Edge}
    {t : UTree}
    (hn : (nodes.map (fun n => n.uid)).Perm t.uids)
    (he : (edges.map (fun e => (e.source, e.target))).Perm t.edgePairs)
    (u : String) :
    (childUidsOf nodes edges u).Perm
      ((t.edgePairs.filter (fun pr => pr.1 == u)).map (fun pr => pr.2)) := by
  have h1 : ((edges.map (fun e => (e.source, e.target))).filter
      (fun pr => pr.1 == u)).map (fun pr => pr.2) =
      (edges.filter (fun e => e.source == u)).map (fun e => e.target) := by
    rw [List.filter_map, List.map_map]
    rfl
  rw [childUidsOf, attachedEdges_eq_self hn he, ← h1]
  exact (he.filter _).map _

theorem descCount_eq_size {nodes : List RawNode} {edges : List Edge}
    {t : UTree}
    (hn : (nodes.map (fun n => n.uid)).Perm t.uids)
    (he : (edges.map (fun e => (e.source, e.target))).Perm t.edgePairs)
    (hnd : t.uids.Nodup) :
    ∀ s : UTree, UTree.Occurs s t → ∀ fuel : Nat, s.size ≤ fuel →
      descCount nodes edges fuel s.uid = s.size := by
  apply UTree.my_ind
    (P := fun s => UTree.Occurs s t → ∀ fuel : Nat, s.size ≤ fuel →
      descCount nodes edges fuel s.uid = s.size)
  intro u cs ih hocc fuel hfuel
  have hsize : (UTree.mk u cs).size = 1 + (cs.map UTree.size).sum :=
    UTree.size_mk u cs
  cases fuel with
  | zero => rw [hsize] at hfuel; omega
  | succ f =>
    have huid : (UTree.mk u cs).uid = u := rfl
    rw [huid, descCount, hsize]
    have hperm : (childUidsOf nodes edges u).Perm (cs.map UTree.uid) := by
      have h1 := childUids_perm hn he u
      have h2 := UTree.edgesFrom_eq hocc hnd
      rw [show (UTree.mk u cs).uid = u from rfl,
        show (UTree.mk u cs).children = cs from rfl] at h2
      rw [← h2]
      exact h1
    have hsum : ((childUidsOf nodes edges u).map
        (descCount nodes edges f)).sum =
        ((cs.map UTree.uid).map (descCount nodes edges f)).sum :=
      (hperm.map _).sum_eq
    rw [hsum, List.map_map]
    have hpoint : cs.map (descCount nodes edges f ∘ UTree.uid) =
        cs.map UTree.size := by
      apply List.map_congr_left
      intro c hc
      have hcs : c.size ≤ (cs.map UTree.size).sum :=
        List.single_le_sum (fun x _ => Nat.zero_le x) _
          (List.mem_map.mpr ⟨c, hc, rfl⟩)
      have hoccc : UTree.Occurs c t := hocc.trans_child hc
      have := ih c hc hoccc f (by rw [hsize] at hfuel; omega)
      simpa [Function.comp] using this
    rw [hpoint]

/-- C3: for every node set and edge set that are exactly the nodes and
edges of a proper single-rooted tree (distinct, non-empty uids), the
Hierarchy Builder returns a root, its uid is the tree's root uid, and
the number of nodes reachable from it through the children lists equals
the number of nodes. -/
theorem proper_tree_roundtrip (t : UTree) (nodes : List RawNode)
    (edges : List Edge) (hwf : t.WF)
    (hn : (nodes.map (fun n => n.uid)).Perm t.uids)
    (he : (edges.map (fun e => (e.source, e.target))).Perm t.edgePairs) :
    ∃ r, buildHierarchy nodes edges = some r ∧ r.uid = t.uid ∧
      descCount nodes edges nodes.length r.uid = nodes.length := by
  obtain ⟨hnd, hnonempty⟩ := hwf
  have hlen : nodes.length = t.size := by
    have h1 : (nodes.map (fun n => n.uid)).length = t.uids.length :=
      hn.length_eq
    rw [List.length_map] at h1
    rw [h1, UTree.length_uids]
  -- every edge has a non-empty target, so the filter at line 99 keeps all
  have hchildList : childrenUidsList edges =
      edges.map (fun e => e.target) := by
    rw [childrenUidsList]
    have : edges.filter (fun e => e.target ≠ "") = edges := by
      rw [List.filter_eq_self]
      intro e hee
      have hpe : (e.source, e.target) ∈ t.edgePairs :=
        he.mem_iff.mp (List.mem_map.mpr ⟨e, hee, rfl⟩)
      have := hnonempty _ (t.edgePairs_mem_uids (e.source, e.target) hpe).2
      simpa using this
    rw [this]
  have hinc : ∀ v, hasIncoming edges v = true ↔
      ∃ pr ∈ t.edgePairs, pr.2 = v := by
    intro v
    rw [hasIncoming, hchildList, List.elem_iff]
    constructor
    · intro hv
      obtain ⟨e, hee, rfl⟩ := List.mem_map.mp hv
      exact ⟨(e.source, e.target),
        he.mem_iff.mp (List.mem_map.mpr ⟨e, hee, rfl⟩), rfl⟩
    · rintro ⟨pr, hpr, rfl⟩
      obtain ⟨e, hee, hpe⟩ := List.mem_map.mp (he.mem_iff.mpr hpr)
      exact List.mem_map.mpr ⟨e, hee, congrArg Prod.snd hpe⟩
  have hkey : ∀ n ∈ nodes,
      (!hasIncoming edges n.uid) = (n.uid == t.uid) := by
    intro n hnn
    have hmemuid : n.uid ∈ t.uids :=
      hn.mem_iff.mp (List.mem_map.mpr ⟨n, hnn, rfl⟩)
    by_cases hEq : n.uid = t.uid
    · cases hb : hasIncoming edges n.uid with
      | false => simp [hEq]
      | true =>
        exfalso
        obtain ⟨pr, hpr, hpr2⟩ := (hinc n.uid).mp hb
        exact (t.root_not_target hnd pr hpr) (by rw [hpr2, hEq])
    · have hi : hasIncoming edges n.uid = true := by
        rw [hinc]
        exact UTree.nonroot_is_target t n.uid hmemuid hEq
      simp [hi, hEq]
  have hroots : rootsOf nodes edges =
      nodes.filter (fun n => n.uid == t.uid) := by
    rw [rootsOf]; exact List.filter_congr hkey
  have hcount : (nodes.filter (fun n => n.uid == t.uid)).length = 1 := by
    rw [← List.countP_eq_length_filter]
    have h1 : List.countP (fun n => n.uid == t.uid) nodes =
        List.countP (fun v => v == t.uid)
          (nodes.map (fun n => n.uid)) := by
      rw [List.countP_map]; rfl
    have h2 : List.countP (fun v => v == t.uid)
        (nodes.map (fun n => n.uid)) =
        List.count t.uid (nodes.map (fun n => n.uid)) := rfl
    rw [h1, h2, hn.count_eq]
    exact List.count_eq_one_of_mem hnd t.uid_mem_uids
  obtain ⟨rootN, hrootN⟩ :=
    List.length_eq_one.mp (hroots ▸ hcount : (rootsOf nodes edges).length = 1)
  have hrootmem : rootN ∈ nodes.filter (fun n => n.uid == t.uid) := by
    rw [← hroots, hrootN]; exact List.mem_cons_self _ _
  obtain ⟨hrootnodes, hrootuid⟩ := List.mem_filter.mp hrootmem
  have hrootuid' : rootN.uid = t.uid := by simpa using hrootuid
  have hne : ¬ nodes.isEmpty = true := by
    have h1 : 1 ≤ t.size := by
      cases t with
      | mk u cs => rw [UTree.size_mk]; omega
    rw [List.isEmpty_iff]
    intro hnil
    rw [hnil] at hlen
    simp at hlen
    omega
  have hlook := lookupNode_isSome_of_mem hrootnodes
  obtain ⟨r, hr⟩ := Option.isSome_iff_exists.mp hlook
  have hruid : r.uid = rootN.uid := by
    have := List.find?_some hr
    simpa using this
  refine ⟨r, ?_, ?_, ?_⟩
  · rw [buildHierarchy, if_neg hne, hrootN]
    exact hr
  · rw [hruid, hrootuid']
  · rw [hruid, hrootuid']
    have := descCount_eq_size hn he hnd t (UTree.Occurs.refl t)
      nodes.length (le_of_eq hlen.symm)
    rw [this, hlen]

/-- The specification's concrete scenario as a proper tree:
`b1` with children `l1`, `l2`. -/
def demoTree : UTree :=
  UTree.mk "b1" [UTree.mk "l1" [], UTree.mk "l2" []]

def demoNodes : List RawNode :=
  nodesOf [Branch.mk "b1" "is_number?"]
    [Leaf.mk "l1" (some "float") none none (some "float(3.14)"),
     Leaf.mk "l2" (some "string") none none none]

def demoEdges : List Edge :=
  [Edge.mk "b1" "l1" (some "true"), Edge.mk "b1" "l2" (some "false")]

theorem demoTree_uids : demoTree.uids = ["b1", "l1", "l2"] := by
  simp [demoTree, UTree.uids_mk]

theorem demoTree_edgePairs :
    demoTree.edgePairs = [("b1", "l1"), ("b1", "l2")] := by
  simp [demoTree, UTree.edgePairs_mk, UTree.uid]

/-- Witness for C3: on the concrete 3-node proper tree
(`b1 → l1`, `b1 → l2`) the builder returns a root with uid `b1` whose
descendant count is 3. -/
theorem proper_tree_roundtrip_witness :
    ∃ r, buildHierarchy demoNodes demoEdges = some r ∧ r.uid = "b1" ∧
      descCount demoNodes demoEdges demoNodes.length r.uid = 3 := by
  have hwf : demoTree.WF := by
    constructor
    · rw [demoTree_uids]; decide
    · rw [demoTree_uids]; decide
  have hn : (demoNodes.map (fun n => n.uid)).Perm demoTree.uids := by
    rw [demoTree_uids,
      show demoNodes.map (fun n => n.uid) = ["b1", "l1", "l2"] from rfl]
  have he : (demoEdges.map (fun e => (e.source, e.target))).Perm
      demoTree.edgePairs := by
    rw [demoTree_edgePairs,
      show demoEdges.map (fun e => (e.source, e.target)) =
        [("b1", "l1"), ("b1", "l2")] from rfl]
  obtain ⟨r, h1, h2, h3⟩ :=
    proper_tree_roundtrip demoTree demoNodes demoEdges hwf hn he
  exact ⟨r, h1, h2, h3⟩

/-- Witness for C9 at the concrete scenario's leaf output
`"float(3.14)"`: the match succeeds and the structured rendering is
produced. -/
theorem output_parsing_witness :
    renderOutput ("float(3.14)".toList) =
      .structured ("float".toList)
        (truncateText ("3.14".toList) (MAX_VALUE_WIDTH - 2)) :=
  output_parsing.2.2.2.1 ("float(3.14)".toList) ("float".toList)
    ("3.14".toList) (by decide)

end RenderTree
